import Mathlib

/-!
Shallow embedding of `ryppl/commands/develop.py` (the `develop` command of
the ryppl tool shipped inside boost-1.50.0): the multi-feed selection merge
(`solve`), the submodule materializer (`git_add_feed_submodule` and the
fetch-loop of `prepare_src`), and the build-tree assembler (the
CMakeLists.txt generation of `prepare_src`).

Python dicts are embedded as association lists (in iteration order) with
distinct keys; exceptions as `Except`/an explicit failure option; the side
effects of the materializer (directory creation, git invocations, task-pool
scheduling) as an explicit event trace.
-/

namespace Develop

/-! ### Selection merge: `solve` (develop.py lines 42-79)

A solver selection (`driver.solver.selections`) maps an interface URI to a
selection element carrying a `version` attribute and an implementation `id`.
-/

/-- One selection element: `sel.attrs['version']` and `sel.id`. -/
structure Selection where
  version : String
  id : String
deriving Repr, DecidableEq

/-- Dict lookup `d[k]`, over a dict embedded as an association list. -/
def dictGet? {α : Type} (d : List (String × α)) (k : String) : Option α :=
  (d.find? (fun p => p.1 = k)).map (·.2)

/-- Dict assignment `d[k] = v`: replace the entry when the key is present, append otherwise
(Python dict assignment, preserving insertion order). -/
def dictSet {α : Type} (d : List (String × α)) (k : String) (v : α) :
    List (String × α) :=
  if d.any (fun p => p.1 = k) then
    d.map (fun p => if p.1 = k then (k, v) else p)
  else
    d ++ [(k, v)]

/-- Python `d.setdefault(k, v)`: return the stored value when the key is present,
else store and return `v` (develop.py line 76). -/
def setdefault (d : List (String × String)) (k v : String) :
    String × List (String × String) :=
  match dictGet? d k with
  | some v0 => (v0, d)
  | none => (v, d ++ [(k, v)])

/-- The `else` branch of `solve`'s merge (develop.py lines 75-78): fold one
root's selection items into the accumulated selections and the `versions`
dict, failing with the assertion message on a version mismatch. -/
def mergeRoot (selections : List (String × Selection))
    (versions : List (String × String))
    (items : List (String × Selection)) :
    Except String (List (String × Selection) × List (String × String)) :=
  match items with
  | [] => .ok (selections, versions)
  | (uri, sel) :: rest =>
    let (v, versions1) := setdefault versions uri sel.version
    if v = sel.version then
      mergeRoot (dictSet selections uri sel) versions1 rest
    else
      .error "Version mismatch; not yet supported."

/-- The loop of `solve` (develop.py lines 43-78) over the per-root
resolution results, abstracting the external solver: `roots` is the list of
`driver.solver.selections.selections` dicts, one per entry of `args.feed`.
The first root's selections object is taken as the accumulator; later
roots are folded in through `mergeRoot`. -/
def solveLoop (selections : Option (List (String × Selection)))
    (versions : List (String × String))
    (roots : List (List (String × Selection))) :
    Except String (Option (List (String × Selection))) :=
  match roots with
  | [] => .ok selections
  | r :: rest =>
    match selections with
    | none => solveLoop (some r) versions rest
    | some s =>
      match mergeRoot s versions r with
      | .ok (s1, v1) => solveLoop (some s1) v1 rest
      | .error e => .error e

/-- Embedding of `solve` (develop.py lines 42-79), restricted to the merge it performs:
`selections = None`, `versions = {}`, then the per-feed loop. -/
def solve (roots : List (List (String × Selection))) :
    Except String (Option (List (String × Selection))) :=
  solveLoop none [] roots

/-! ### Submodule materializer: `git_add_feed_submodule` and the fetch
loop of `prepare_src` (develop.py lines 81-100 and 151-174)

Side effects (directory creation, the synchronous `git init` /
`git submodule add` registrations, and scheduling of the asynchronous
fetch+checkout task on the thread pool) are recorded as an event trace. -/

/-- A feed metadata element, as inspected by `git_add_feed_submodule`
(its XML namespace `uri`, local `name`, and `href` attribute). -/
structure MetadataEntry where
  uri : String
  name : String
  href : String
deriving Repr, DecidableEq

/-- The part of a 0install feed that `prepare_src` and
`git_add_feed_submodule` consult: its metadata elements and its
implementation table (`feed.implementations`, keyed by implementation id;
the stored value is the `vcs-revision` used by the fetch task). -/
structure Feed where
  name : String
  metadata : List MetadataEntry
  implementations : List (String × String)
deriving Repr, DecidableEq

/-- One observable side effect of the materializer, in control-thread
order. `addTask work_dir submodule_name` is the call
`tasks.add_task(git_add_feed_submodule2, ...)` scheduling the asynchronous
fetch+checkout for that work directory. -/
inductive Event where
  | makedirs (dir : String)
  | gitInitRepo (dir : String)
  | gitSubmoduleAdd (href : String) (dir : String)
  | addTask (dir : String) (name : String)
deriving Repr, DecidableEq

/-- A fatal failure raised on the control thread during materialization. -/
inductive Failure where
  /-- Failure of `assert len(repos) == 1` (develop.py line 89). -/
  | assertRepoCount (feedName : String)
  /-- Error from `os.makedirs(work_dir)` because the directory exists
  (develop.py line 94): the naming collision. -/
  | makedirsExists (dir : String)
deriving Repr, DecidableEq

/-- Control-thread state: the set of directories created so far and the
trace of events so far. -/
structure MatState where
  dirs : List String
  events : List Event
deriving Repr, DecidableEq

/-- Derivation `submodule_name = repo.attrs['href'].rsplit('/',1)[-1].rsplit('.',1)[0]`
(develop.py line 92): final path segment of the origin URL (the suffix
after the last `/`, the whole string when there is none) with its
extension stripped (the prefix before the last `.`, the whole segment when
there is none). -/
def submoduleNameOf (href : String) : String :=
  let base := (href.data.reverse.takeWhile (fun c => c ≠ '/')).reverse
  let stem :=
    if base.contains '.' then
      ((base.reverse.dropWhile (fun c => c ≠ '.')).drop 1).reverse
    else base
  ⟨stem⟩

/-- Sanity check of the name derivation on a boost-style origin URL. -/
theorem submoduleNameOf_sample_git_url :
    submoduleNameOf "git://github.com/ryppl/boost.git" = "boost" := by decide

/-- Sanity check: no slash and no extension leave the URL unchanged. -/
theorem submoduleNameOf_sample_plain :
    submoduleNameOf "plain" = "plain" := by decide

/-- The `repos` comprehension of `git_add_feed_submodule`
(develop.py lines 83-86): the feed's `vcs-repository` metadata entries in
the `http://ryppl.org/2012` namespace. -/
def Feed.vcsRepos (feed : Feed) : List MetadataEntry :=
  feed.metadata.filter
    (fun x => x.uri == "http://ryppl.org/2012" && x.name == "vcs-repository")

/-- Embedding of `git_add_feed_submodule` (develop.py lines 81-100): filter the feed's
metadata to `vcs-repository` entries in the ryppl 2012 namespace; none
means the component is skipped (`return None`), more than one fails the
assertion; otherwise derive the submodule name, create the work directory
(failing when it already exists), run the synchronous registrations, and
only then schedule the asynchronous fetch task.  Returns the submodule
name together with the new state. -/
def git_add_feed_submodule (feed : Feed) (whereDir : String)
    (st : MatState) : Except Failure (Option String × MatState) :=
  match feed.vcsRepos with
  | [] => .ok (none, st)
  | [repo] =>
    let submodule_name := submoduleNameOf repo.href
    let work_dir := whereDir ++ "/" ++ submodule_name
    if work_dir ∈ st.dirs then
      .error (.makedirsExists work_dir)
    else
      .ok (some submodule_name,
        { dirs := work_dir :: st.dirs
          events := st.events ++
            [.makedirs work_dir, .gitInitRepo work_dir,
             .gitSubmoduleAdd repo.href work_dir,
             .addTask work_dir submodule_name] })
  | _ => .error (.assertRepoCount feed.name)

/-- Accumulated result of the fetch loop: materializer state plus the
`submodules` dict (the SubmoduleRecord: name ↦ (requested, directory)). -/
structure FetchState where
  mat : MatState
  submodules : List (String × (Bool × String))
deriving Repr, DecidableEq

/-- One iteration of the fetch loop of `prepare_src`
(develop.py lines 157-174) for the selection `(uri, sel)`.  A component
whose selected implementation id is absent from the feed's implementation
table is skipped entirely; `submodules[submodule] = ...` only happens when
the returned name is truthy (non-`None` and non-empty). -/
def fetchStep (cache : String → Feed) (argsFeed : List String)
    (uri : String) (sel : Selection) (st : FetchState) :
    Except Failure FetchState :=
  let feed := cache uri
  let requested := uri ∈ argsFeed
  let parent_dir := if requested then "." else ".dependencies"
  if (dictGet? feed.implementations sel.id).isSome then
    match git_add_feed_submodule feed parent_dir st.mat with
    | .error e => .error e
    | .ok (none, mat1) => .ok { st with mat := mat1 }
    | .ok (some submodule, mat1) =>
      if submodule = "" then .ok { st with mat := mat1 }
      else .ok { mat := mat1
                 submodules := dictSet st.submodules submodule
                   (decide requested, parent_dir ++ "/" ++ submodule) }
  else
    .ok st

/-- The fetch loop of `prepare_src` (develop.py lines 157-174) over the
merged selections, threading the control-thread state.  On a failure the
loop stops; the events already in the state have happened. -/
def fetchLoop (cache : String → Feed) (argsFeed : List String)
    (sels : List (String × Selection)) (st : FetchState) :
    FetchState × Option Failure :=
  match sels with
  | [] => (st, none)
  | (uri, sel) :: rest =>
    match fetchStep cache argsFeed uri sel st with
    | .error e => (st, some e)
    | .ok st1 => fetchLoop cache argsFeed rest st1

/-- Materialization of the whole selection set, from the empty state. -/
def materialize (cache : String → Feed) (argsFeed : List String)
    (sels : List (String × Selection)) : FetchState × Option Failure :=
  fetchLoop cache argsFeed sels ⟨⟨[], []⟩, []⟩

/-! ### Build-tree assembler: descriptor generation in `prepare_src`
(develop.py lines 114-129 and 138-199)

Each `f.write(...)` appends one chunk; a descriptor file is the list of
chunks written to it, rendered by concatenation. -/

/-- Text of `cmakelists_head` (develop.py lines 114-116). -/
def cmakelists_head : String :=
  "# Project file generated by Ryppl\ncmake_minimum_required(VERSION 2.8.8 FATAL_ERROR)\n"

/-- Text of `push_disable_tests_docs_examples` (develop.py lines 118-123). -/
def push_disable_tests_docs_examples : String :=
  "\nforeach(name TEST DOC EXAMPLE)\n  set_property(DIRECTORY PROPERTY RYPPL_DISABLE_$\x7bname\x7dS $\x7bRYPPL_DISABLE_$\x7bname\x7dS\x7d)\n  set(RYPPL_DISABLE_$\x7bname\x7dS true)\nendforeach()\n"

/-- Text of `pop_disable_tests_docs_examples` (develop.py lines 125-129). -/
def pop_disable_tests_docs_examples : String :=
  "\nforeach(name TEST DOC EXAMPLE)\n  get_property(RYPPL_DISABLE_$\x7bname\x7dS DIRECTORY PROPERTY RYPPL_DISABLE_$\x7bname\x7dS)\nendforeach()\n"

/-- The block written to the top-level CMakeLists.txt right after the head
(develop.py lines 144-148), with `%s` instantiated to `.dependencies`. -/
def top_preamble : String :=
  "\nadd_definitions(-DBOOST_ALL_NO_LIB)\nlist(APPEND CMAKE_MODULE_PATH \"$\x7bCMAKE_CURRENT_LIST_DIR\x7d/.dependencies/ryppl/cmake/Modules\")\nset(RYPPL_INITIAL_PASS TRUE CACHE BOOL \"\")\n"

/-- The final block written to the top-level CMakeLists.txt
(develop.py lines 189-199), with `%s` instantiated to `.dependencies`:
the include of the dependency directory followed by the initial-pass
`message(SEND_ERROR ...)` block that clears the flag. -/
def top_footer : String :=
  "\nadd_subdirectory(.dependencies)\n\nif(RYPPL_INITIAL_PASS)\n  # report an error in order to inhibit the generation step (save time).\n  message(SEND_ERROR\n    \"Initial pass successfully completed, now run again!\"\n    )\n  set(RYPPL_INITIAL_PASS FALSE CACHE BOOL \"\" FORCE)\nendif(RYPPL_INITIAL_PASS)\n"

/-- One `f.write(...)` chunk of a generated descriptor. -/
inductive Chunk where
  | head
  | preamble
  | pushDisableBlock
  | popDisableBlock
  | addSubdirectoryLine (name : String)
  | footer
deriving Repr, DecidableEq

/-- The exact text each chunk writes (develop.py lines 114-129, 142-149,
185-186, 188-199). -/
def Chunk.render : Chunk → String
  | .head => cmakelists_head
  | .preamble => top_preamble
  | .pushDisableBlock => push_disable_tests_docs_examples
  | .popDisableBlock => pop_disable_tests_docs_examples
  | .addSubdirectoryLine n => "add_subdirectory(" ++ n ++ ")\n"
  | .footer => top_footer

/-- Embedding of `sorted(submodules.items())` (develop.py line 183): the SubmoduleRecord
in ascending order of submodule name (keys of a dict, hence distinct). -/
def sortedSubmodules (record : List (String × (Bool × String))) :
    List (String × (Bool × String)) :=
  record.mergeSort (fun a b => decide (a.1 ≤ b.1))

/-- The directive loop (develop.py lines 183-186): for each record entry in
sorted order whose directory contains a CMakeLists.txt (`hasCML` is the
`os.path.isfile` oracle), append an `add_subdirectory` line to the
top-level descriptor when requested, else to the dependency descriptor. -/
def writeDirectives (hasCML : String → Bool)
    (entries : List (String × (Bool × String)))
    (top dep : List Chunk) : List Chunk × List Chunk :=
  match entries with
  | [] => (top, dep)
  | (submodule, (requested, dir)) :: rest =>
    if hasCML (dir ++ "/CMakeLists.txt") then
      if requested then
        writeDirectives hasCML rest (top ++ [.addSubdirectoryLine submodule]) dep
      else
        writeDirectives hasCML rest top (dep ++ [.addSubdirectoryLine submodule])
    else
      writeDirectives hasCML rest top dep

/-- Descriptor generation of `prepare_src` (develop.py lines 138-199) given
the SubmoduleRecord left by the (drained) fetch loop: head written to both
files, preamble to the top one, suppression push to the dependency one,
then the sorted directive loop, then the suppression pop to the dependency
descriptor and the footer to the top one.  Returns (top, dependency)
chunk lists. -/
def prepareSrcFiles (record : List (String × (Bool × String)))
    (hasCML : String → Bool) : List Chunk × List Chunk :=
  let top0 : List Chunk := [.head, .preamble]
  let dep0 : List Chunk := [.head, .pushDisableBlock]
  let (top1, dep1) := writeDirectives hasCML (sortedSubmodules record) top0 dep0
  (top1 ++ [.footer], dep1 ++ [.popDisableBlock])

/-- The rendered text of a generated descriptor: the concatenation of its
chunks in write order. -/
def renderFile : List Chunk → String
  | [] => ""
  | c :: rest => c.render ++ renderFile rest

/-- The `if(RYPPL_INITIAL_PASS)` block at the end of the top-level
descriptor (develop.py lines 192-198): a deliberate fatal configure-time
error instructing the user to run again, followed by the line that clears
the flag for the second pass. -/
def initial_pass_error_block : String :=
  "\nif(RYPPL_INITIAL_PASS)\n  # report an error in order to inhibit the generation step (save time).\n  message(SEND_ERROR\n    \"Initial pass successfully completed, now run again!\"\n    )\n  set(RYPPL_INITIAL_PASS FALSE CACHE BOOL \"\" FORCE)\nendif(RYPPL_INITIAL_PASS)\n"

/-- The submodule names carried by the `add_subdirectory` chunks of a
descriptor, in file order. -/
def directiveNames (chunks : List Chunk) : List String :=
  chunks.filterMap (fun c =>
    match c with
    | .addSubdirectoryLine n => some n
    | _ => none)

/-- Decidable equality for `Except`, used to evaluate the embedded
functions on concrete inputs. -/
instance {ε α : Type} [DecidableEq ε] [DecidableEq α] :
    DecidableEq (Except ε α) := fun a b =>
  match a, b with
  | .ok x, .ok y =>
    if h : x = y then isTrue (congrArg Except.ok h)
    else isFalse (fun hc => h (by injection hc))
  | .error x, .error y =>
    if h : x = y then isTrue (congrArg Except.error h)
    else isFalse (fun hc => h (by injection hc))
  | .ok _, .error _ => isFalse (fun hc => Except.noConfusion hc)
  | .error _, .ok _ => isFalse (fun hc => Except.noConfusion hc)

/-! ### Concrete fixtures used in counterexamples and witnesses -/

/-- A feed whose origin URL derives the submodule name `x`. -/
def feedA : Feed :=
  ⟨"A", [⟨"http://ryppl.org/2012", "vcs-repository", "http://h/x.git"⟩],
   [("id1", "rev1")]⟩

/-- A second feed whose (different) origin URL also derives the submodule
name `x`. -/
def feedB : Feed :=
  ⟨"B", [⟨"http://ryppl.org/2012", "vcs-repository", "git://g/x.git"⟩],
   [("id2", "rev2")]⟩

/-- A feed with two `vcs-repository` metadata entries. -/
def feedTwoRepos : Feed :=
  ⟨"T", [⟨"http://ryppl.org/2012", "vcs-repository", "http://h/a.git"⟩,
         ⟨"http://ryppl.org/2012", "vcs-repository", "http://h/b.git"⟩],
   [("id1", "rev1")]⟩

/-- A feed cache mapping `ua` to `feedA` and everything else to `feedB`. -/
def cache0 : String → Feed := fun u => if u = "ua" then feedA else feedB

/-- The two-component selection list on which `feedA` and `feedB` collide
on the derived directory name `x` inside `.dependencies`. -/
def collidingSels : List (String × Selection) :=
  [("ua", ⟨"1", "id1"⟩), ("ub", ⟨"1", "id2"⟩)]

/-- A SubmoduleRecord with one requested and two dependency components. -/
def record0 : List (String × (Bool × String)) :=
  [("b", (false, ".dependencies/b")), ("a", (true, "./a")),
   ("c", (false, ".dependencies/c"))]

/-- A filesystem oracle: every materialized directory except `c`'s
carries a CMakeLists.txt. -/
def hasCML0 : String → Bool :=
  fun p => p ≠ ".dependencies/c/CMakeLists.txt"

/-! ### Theorems -/

/-- C1: with exactly two root requests sharing the interface URI `u`
resolved to versions `1` and `2`, `solve` does NOT fail: the `versions`
dict is never seeded from the first root (develop.py lines 72-73 assign
`selections` directly), so the mismatch assertion at line 77 compares the
second root's version with itself and the second root's selection silently
overwrites the first.  The merge returns a SelectionSet carrying version
`2` for `u` instead of raising the `Version mismatch` error. -/
theorem solve_two_root_conflict_not_detected :
    solve [[("u", ⟨"1", "i1"⟩)], [("u", ⟨"2", "i2"⟩)]] =
      .ok (some [("u", ⟨"2", "i2"⟩)]) := by decide

/-- C9: materialization of a component requires exactly one
`vcs-repository` metadata entry: with zero entries the component is
skipped (`return None`, state untouched), with two or more the
`assert len(repos) == 1` fails, and with exactly one the assertion cannot
fire (develop.py lines 83-91). -/
theorem git_add_feed_submodule_repo_count (feed : Feed) (whereDir : String)
    (st : MatState) :
    (feed.vcsRepos.length = 0 →
      git_add_feed_submodule feed whereDir st = .ok (none, st)) ∧
    (2 ≤ feed.vcsRepos.length →
      git_add_feed_submodule feed whereDir st =
        .error (.assertRepoCount feed.name)) ∧
    (feed.vcsRepos.length = 1 →
      git_add_feed_submodule feed whereDir st ≠
        .error (.assertRepoCount feed.name)) := by
  rcases h : feed.vcsRepos with _ | ⟨r, _ | ⟨r2, rest⟩⟩
  · simp [git_add_feed_submodule, h]
  · refine ⟨by simp [h], by simp [h], fun _ => ?_⟩
    simp only [git_add_feed_submodule, h]
    split <;> simp
  · simp [git_add_feed_submodule, h]

/-- Witness for C9 at concrete inputs: `feedB` has one `vcs-repository`
entry, `feedTwoRepos` has two. -/
theorem git_add_feed_submodule_repo_count_witness :
    git_add_feed_submodule feedTwoRepos "." ⟨[], []⟩ =
      .error (.assertRepoCount "T") ∧
    git_add_feed_submodule feedB "." ⟨[], []⟩ ≠
      .error (.assertRepoCount "B") :=
  ⟨(git_add_feed_submodule_repo_count feedTwoRepos "." ⟨[], []⟩).2.1
      (by decide),
   (git_add_feed_submodule_repo_count feedB "." ⟨[], []⟩).2.2 (by decide)⟩

/-- C10: a selection whose implementation id is absent from the feed's
implementation table is skipped entirely by the fetch loop
(develop.py line 163): the state — created directories, event trace
(hence registrations and fetch tasks), and the SubmoduleRecord — is
returned unchanged. -/
theorem fetchStep_skips_missing_implementation (cache : String → Feed)
    (argsFeed : List String) (uri : String) (sel : Selection)
    (st : FetchState)
    (h : dictGet? (cache uri).implementations sel.id = none) :
    fetchStep cache argsFeed uri sel st = .ok st := by
  simp [fetchStep, h]

/-- Witness for C10: implementation id `nope` is absent from `feedB`. -/
theorem fetchStep_skips_missing_implementation_witness :
    fetchStep cache0 [] "uc" ⟨"1", "nope"⟩ ⟨⟨[], []⟩, []⟩ =
      .ok ⟨⟨[], []⟩, []⟩ :=
  fetchStep_skips_missing_implementation cache0 [] "uc" ⟨"1", "nope"⟩
    ⟨⟨[], []⟩, []⟩ (by decide)

/-- C2 counterexample: materializing `collidingSels` (two components whose
origin URLs both derive directory name `x` in the `.dependencies`
placement directory) does fail with the `makedirs` collision, but only
AFTER the fetch task for the first colliding member has been scheduled on
the task pool: the trace already contains its `addTask` event.  This
refutes the claim that no fetch task for either member of the pair has
been scheduled at failure time. -/
theorem materialize_collision_first_task_already_scheduled :
    (materialize cache0 [] collidingSels).2 =
      some (.makedirsExists ".dependencies/x") ∧
    Event.addTask ".dependencies/x" "x" ∈
      (materialize cache0 [] collidingSels).1.mat.events := by decide

/-- Unfolding of the directive loop (develop.py lines 183-186): it appends
to each descriptor exactly the `add_subdirectory` chunks of the entries
passing its checks, in entry order. -/
theorem writeDirectives_eq (hasCML : String → Bool)
    (entries : List (String × (Bool × String))) (top dep : List Chunk) :
    writeDirectives hasCML entries top dep =
      (top ++ (entries.filter
          (fun e => hasCML (e.2.2 ++ "/CMakeLists.txt") && e.2.1)).map
          (fun e => Chunk.addSubdirectoryLine e.1),
       dep ++ (entries.filter
          (fun e => hasCML (e.2.2 ++ "/CMakeLists.txt") && !e.2.1)).map
          (fun e => Chunk.addSubdirectoryLine e.1)) := by
  induction entries generalizing top dep with
  | nil => simp [writeDirectives]
  | cons e rest ih =>
    obtain ⟨name, requested, dir⟩ := e
    cases requested <;> by_cases hc : hasCML (dir ++ "/CMakeLists.txt") <;>
      simp [writeDirectives, hc, ih]

/-- The generated descriptors in closed form: head, preamble/push, the
filtered sorted directives, footer/pop. -/
theorem prepareSrcFiles_eq (record : List (String × (Bool × String)))
    (hasCML : String → Bool) :
    prepareSrcFiles record hasCML =
      ([Chunk.head, Chunk.preamble] ++
         ((sortedSubmodules record).filter
            (fun e => hasCML (e.2.2 ++ "/CMakeLists.txt") && e.2.1)).map
            (fun e => Chunk.addSubdirectoryLine e.1) ++ [Chunk.footer],
       [Chunk.head, Chunk.pushDisableBlock] ++
         ((sortedSubmodules record).filter
            (fun e => hasCML (e.2.2 ++ "/CMakeLists.txt") && !e.2.1)).map
            (fun e => Chunk.addSubdirectoryLine e.1) ++
           [Chunk.popDisableBlock]) := by
  simp [prepareSrcFiles, writeDirectives_eq]

/-- C5: in the dependency descriptor the suppression push appears exactly
once and before every include-subdirectory directive, and the restore
appears exactly once and after the last directive, for any number of
dependency components: the descriptor is literally head, push, the
directive lines, pop. -/
theorem dep_descriptor_push_pop_symmetric
    (record : List (String × (Bool × String))) (hasCML : String → Bool) :
    ((prepareSrcFiles record hasCML).2.count Chunk.pushDisableBlock = 1 ∧
     (prepareSrcFiles record hasCML).2.count Chunk.popDisableBlock = 1) ∧
    ∃ incs, (prepareSrcFiles record hasCML).2 =
        [Chunk.head, Chunk.pushDisableBlock] ++ incs ++
          [Chunk.popDisableBlock] ∧
        ∀ c ∈ incs, ∃ n, c = Chunk.addSubdirectoryLine n := by
  rw [prepareSrcFiles_eq]
  refine ⟨⟨?_, ?_⟩, _, rfl, ?_⟩
  · simp [List.count_append, List.count_cons, List.count_eq_zero,
      List.mem_map]
  · simp [List.count_append, List.count_cons, List.count_eq_zero,
      List.mem_map]
  · intro c hc
    obtain ⟨e, -, rfl⟩ := List.mem_map.1 hc
    exact ⟨e.1, rfl⟩

/-- Rendering distributes over appending a final chunk. -/
theorem renderFile_concat (l : List Chunk) (c : Chunk) :
    renderFile (l ++ [c]) = renderFile l ++ c.render := by
  induction l with
  | nil => simp [renderFile]
  | cons a as ih =>
    show a.render ++ renderFile (as ++ [c]) =
      (a.render ++ renderFile as) ++ c.render
    rw [ih, String.append_assoc]

/-- Splitting the text of the generated top-level descriptor
(develop.py lines 189-199): the footer chunk is the include of the
dependency directory followed by the initial-pass error block. -/
theorem top_footer_split :
    Chunk.footer.render =
      "\nadd_subdirectory(.dependencies)\n" ++ initial_pass_error_block := by
  rfl

/-- C7: the top-level descriptor ends with the include of the dependency
directory followed by the initial-pass `message(SEND_ERROR ...)` block
that clears the flag, and both descriptors start with the fixed header
declaring the minimum CMake version. -/
theorem top_descriptor_footer_and_headers
    (record : List (String × (Bool × String))) (hasCML : String → Bool) :
    (∃ body, renderFile (prepareSrcFiles record hasCML).1 =
        cmakelists_head ++ body) ∧
    (∃ body, renderFile (prepareSrcFiles record hasCML).2 =
        cmakelists_head ++ body) ∧
    (∃ front, renderFile (prepareSrcFiles record hasCML).1 =
        front ++
          ("\nadd_subdirectory(.dependencies)\n" ++
            initial_pass_error_block)) ∧
    (prepareSrcFiles record hasCML).1.getLast? = some Chunk.footer ∧
    cmakelists_head =
      "# Project file generated by Ryppl\ncmake_minimum_required(VERSION 2.8.8 FATAL_ERROR)\n" := by
  obtain ⟨incs, htop⟩ : ∃ incs, (prepareSrcFiles record hasCML).1 =
      [Chunk.head, Chunk.preamble] ++ incs ++ [Chunk.footer] :=
    ⟨_, by rw [prepareSrcFiles_eq]⟩
  obtain ⟨dincs, hdep⟩ : ∃ dincs, (prepareSrcFiles record hasCML).2 =
      [Chunk.head, Chunk.pushDisableBlock] ++ dincs ++
        [Chunk.popDisableBlock] :=
    ⟨_, by rw [prepareSrcFiles_eq]⟩
  refine ⟨⟨renderFile (Chunk.preamble :: (incs ++ [Chunk.footer])),
      by rw [htop]; rfl⟩,
    ⟨renderFile (Chunk.pushDisableBlock :: (dincs ++
        [Chunk.popDisableBlock])), by rw [hdep]; rfl⟩,
    ⟨renderFile ([Chunk.head, Chunk.preamble] ++ incs), ?_⟩, ?_, rfl⟩
  · rw [htop, ← top_footer_split, renderFile_concat]
  · rw [htop]
    exact List.getLast?_concat _

/-- Directive-name extraction distributes over append. -/
theorem directiveNames_append (l1 l2 : List Chunk) :
    directiveNames (l1 ++ l2) =
      directiveNames l1 ++ directiveNames l2 := by
  simp [directiveNames, List.filterMap_append]

/-- C6: exactly the SubmoduleRecord entries whose directory contains a
CMakeLists.txt produce an `add_subdirectory` directive — in the top-level
descriptor when flagged requested, in the dependency descriptor otherwise;
entries without one appear in neither; and each descriptor's directives
are in ascending order of submodule name. -/
theorem descriptor_directives_spec
    (record : List (String × (Bool × String))) (hasCML : String → Bool)
    (hkeys : (record.map Prod.fst).Nodup) :
    directiveNames (prepareSrcFiles record hasCML).1 =
      ((sortedSubmodules record).filter
        (fun e => hasCML (e.2.2 ++ "/CMakeLists.txt") && e.2.1)).map
        Prod.fst ∧
    directiveNames (prepareSrcFiles record hasCML).2 =
      ((sortedSubmodules record).filter
        (fun e => hasCML (e.2.2 ++ "/CMakeLists.txt") && !e.2.1)).map
        Prod.fst ∧
    (∀ e ∈ record, ¬ hasCML (e.2.2 ++ "/CMakeLists.txt") →
      e.1 ∉ directiveNames (prepareSrcFiles record hasCML).1 ∧
      e.1 ∉ directiveNames (prepareSrcFiles record hasCML).2) ∧
    (directiveNames (prepareSrcFiles record hasCML).1).Sorted (· ≤ ·) ∧
    (directiveNames (prepareSrcFiles record hasCML).2).Sorted (· ≤ ·) := by
  have hmapdir : ∀ l : List (String × (Bool × String)),
      directiveNames (l.map (fun e => Chunk.addSubdirectoryLine e.1)) =
        l.map Prod.fst := by
    intro l
    induction l with
    | nil => rfl
    | cons a as ih => simp [directiveNames] at ih ⊢; exact ih
  have htop : directiveNames (prepareSrcFiles record hasCML).1 =
      ((sortedSubmodules record).filter
        (fun e => hasCML (e.2.2 ++ "/CMakeLists.txt") && e.2.1)).map
        Prod.fst := by
    rw [prepareSrcFiles_eq]
    show directiveNames (([Chunk.head, Chunk.preamble] ++ _) ++
      [Chunk.footer]) = _
    rw [directiveNames_append, directiveNames_append, hmapdir]
    simp [directiveNames]
  have hdep : directiveNames (prepareSrcFiles record hasCML).2 =
      ((sortedSubmodules record).filter
        (fun e => hasCML (e.2.2 ++ "/CMakeLists.txt") && !e.2.1)).map
        Prod.fst := by
    rw [prepareSrcFiles_eq]
    show directiveNames (([Chunk.head, Chunk.pushDisableBlock] ++ _) ++
      [Chunk.popDisableBlock]) = _
    rw [directiveNames_append, directiveNames_append, hmapdir]
    simp [directiveNames]
  have hperm : (sortedSubmodules record).Perm record :=
    List.mergeSort_perm record _
  have hsorted : (sortedSubmodules record).Pairwise
      (fun a b : String × (Bool × String) => a.1 ≤ b.1) := by
    have := @List.sorted_mergeSort _
      (fun a b : String × (Bool × String) => decide (a.1 ≤ b.1))
      (fun a b c hab hbc => by
        simp only [decide_eq_true_eq] at hab hbc ⊢
        exact le_trans hab hbc)
      (fun a b => by
        simp only [Bool.or_eq_true, decide_eq_true_eq]
        exact le_total a.1 b.1)
      record
    exact this.imp (fun h => by simpa using h)
  refine ⟨htop, hdep, ?_, ?_, ?_⟩
  · intro e he hnot
    constructor
    · rw [htop]
      intro hmem
      obtain ⟨e2, he2mem, he2eq⟩ := List.mem_map.1 hmem
      have he2f := List.mem_filter.1 he2mem
      have he2rec : e2 ∈ record := hperm.mem_iff.1 he2f.1
      have : e2 = e := List.inj_on_of_nodup_map hkeys he2rec he he2eq
      rw [this] at he2f
      simp only [Bool.and_eq_true, decide_eq_true_eq] at he2f
      exact hnot (by simpa using he2f.2.1)
    · rw [hdep]
      intro hmem
      obtain ⟨e2, he2mem, he2eq⟩ := List.mem_map.1 hmem
      have he2f := List.mem_filter.1 he2mem
      have he2rec : e2 ∈ record := hperm.mem_iff.1 he2f.1
      have : e2 = e := List.inj_on_of_nodup_map hkeys he2rec he he2eq
      rw [this] at he2f
      simp only [Bool.and_eq_true, decide_eq_true_eq] at he2f
      exact hnot (by simpa using he2f.2.1)
  · rw [htop]
    exact ((hsorted.filter _).map Prod.fst (fun a b h => h))
  · rw [hdep]
    exact ((hsorted.filter _).map Prod.fst (fun a b h => h))

/-- Witness for C6 at the concrete record `record0` (keys `b`, `a`, `c`,
distinct) and oracle `hasCML0`. -/
theorem descriptor_directives_spec_witness :
    directiveNames (prepareSrcFiles record0 hasCML0).1 =
      ((sortedSubmodules record0).filter
        (fun e => hasCML0 (e.2.2 ++ "/CMakeLists.txt") && e.2.1)).map
        Prod.fst ∧
    directiveNames (prepareSrcFiles record0 hasCML0).2 =
      ((sortedSubmodules record0).filter
        (fun e => hasCML0 (e.2.2 ++ "/CMakeLists.txt") && !e.2.1)).map
        Prod.fst ∧
    (∀ e ∈ record0, ¬ hasCML0 (e.2.2 ++ "/CMakeLists.txt") →
      e.1 ∉ directiveNames (prepareSrcFiles record0 hasCML0).1 ∧
      e.1 ∉ directiveNames (prepareSrcFiles record0 hasCML0).2) ∧
    (directiveNames (prepareSrcFiles record0 hasCML0).1).Sorted (· ≤ ·) ∧
    (directiveNames (prepareSrcFiles record0 hasCML0).2).Sorted (· ≤ ·) :=
  descriptor_directives_spec record0 hasCML0 (by decide)

/-- The registration-before-fetch ordering invariant of a materializer
trace: every scheduled fetch task is preceded (strictly, in trace order)
by the directory creation, the repository init and the submodule-add for
its own work directory. -/
def regPrecedesTask (tr : List Event) : Prop :=
  ∀ (i : Nat) (d nm : String), tr[i]? = some (Event.addTask d nm) →
    ∃ (j k l : Nat) (href : String), j < k ∧ k < l ∧ l < i ∧
      tr[j]? = some (Event.makedirs d) ∧
      tr[k]? = some (Event.gitInitRepo d) ∧
      tr[l]? = some (Event.gitSubmoduleAdd href d)

/-- Appending one registration-then-task block preserves the ordering
invariant. -/
theorem regPrecedesTask_append_block (tr : List Event)
    (d href nm : String) (h : regPrecedesTask tr) :
    regPrecedesTask (tr ++
      [.makedirs d, .gitInitRepo d, .gitSubmoduleAdd href d,
       .addTask d nm]) := by
  unfold regPrecedesTask at h ⊢
  intro i d' nm' hi
  rw [List.getElem?_append] at hi
  by_cases hlt : i < tr.length
  · rw [if_pos hlt] at hi
    obtain ⟨j, k, l, href', hjk, hkl, hli, hj, hk, hl⟩ := h i d' nm' hi
    have hj' : j < tr.length := by omega
    have hk' : k < tr.length := by omega
    have hl' : l < tr.length := by omega
    refine ⟨j, k, l, href', hjk, hkl, hli, ?_, ?_, ?_⟩ <;>
      rw [List.getElem?_append] <;> simp_all
  · rw [if_neg hlt] at hi
    have hm : i - tr.length = 3 := by
      rcases hm : i - tr.length with _ | _ | _ | _ | m <;> rw [hm] at hi <;>
        simp_all
    have hd : d' = d ∧ nm' = nm := by
      rw [hm] at hi
      simp only [List.getElem?_cons_succ, List.getElem?_cons_zero,
        Option.some.injEq, Event.addTask.injEq] at hi
      exact ⟨hi.1.symm, hi.2.symm⟩
    refine ⟨tr.length, tr.length + 1, tr.length + 2, href,
      by omega, by omega, by omega, ?_, ?_, ?_⟩ <;>
      rw [List.getElem?_append] <;> rw [if_neg (by omega)] <;>
      simp [hd.1, Nat.sub_self, show tr.length + 1 - tr.length = 1 by omega,
        show tr.length + 2 - tr.length = 2 by omega]

/-- A successful `git_add_feed_submodule` call either leaves the trace
unchanged (component without a vcs origin) or appends exactly one
registration-then-task block. -/
theorem git_add_feed_submodule_events (feed : Feed) (whereDir : String)
    (st : MatState) (res : Option String × MatState)
    (h : git_add_feed_submodule feed whereDir st = .ok res) :
    res.2.events = st.events ∨
      ∃ d href nm, res.2.events = st.events ++
        [.makedirs d, .gitInitRepo d, .gitSubmoduleAdd href d,
         .addTask d nm] := by
  rcases hv : feed.vcsRepos with _ | ⟨repo, _ | _⟩ <;>
    simp only [git_add_feed_submodule, hv] at h
  · simp only [Except.ok.injEq] at h
    subst h
    exact .inl rfl
  · split at h
    · simp at h
    · simp only [Except.ok.injEq] at h
      subst h
      exact .inr ⟨_, _, _, rfl⟩
  · simp at h

/-- A successful fetch-loop step either leaves the trace unchanged
(skipped component) or appends one registration-then-task block. -/
theorem fetchStep_events (cache : String → Feed) (argsFeed : List String)
    (uri : String) (sel : Selection) (st st1 : FetchState)
    (h : fetchStep cache argsFeed uri sel st = .ok st1) :
    st1.mat.events = st.mat.events ∨
      ∃ d href nm, st1.mat.events = st.mat.events ++
        [.makedirs d, .gitInitRepo d, .gitSubmoduleAdd href d,
         .addTask d nm] := by
  simp only [fetchStep] at h
  split at h
  · split at h
    · simp at h
    · rename_i mat1 hg
      simp only [Except.ok.injEq] at h
      subst h
      exact git_add_feed_submodule_events _ _ _ _ hg
    · rename_i nm mat1 hg
      split at h <;>
      · simp only [Except.ok.injEq] at h
        subst h
        exact git_add_feed_submodule_events _ _ _ _ hg
  · simp only [Except.ok.injEq] at h
    subst h
    exact .inl rfl

/-- The registration-before-fetch invariant holds throughout the fetch
loop. -/
theorem fetchLoop_regPrecedesTask (cache : String → Feed)
    (argsFeed : List String) (sels : List (String × Selection))
    (st : FetchState) (h : regPrecedesTask st.mat.events) :
    regPrecedesTask (fetchLoop cache argsFeed sels st).1.mat.events := by
  induction sels generalizing st with
  | nil => exact h
  | cons p rest ih =>
    obtain ⟨uri, sel⟩ := p
    rw [fetchLoop]
    rcases hs : fetchStep cache argsFeed uri sel st with e | st1
    · exact h
    · refine ih st1 ?_
      rcases fetchStep_events cache argsFeed uri sel st st1 hs with
        heq | ⟨d, href, nm, heq⟩
      · rw [heq]; exact h
      · rw [heq]; exact regPrecedesTask_append_block _ _ _ _ h

/-- C4: in every materialization run, the synchronous registration steps
(directory creation, repository init, submodule-add into the enclosing
workspace repository) for a component's work directory all appear in the
control-thread trace strictly before the event that enqueues that
component's asynchronous fetch+checkout task; no fetch task is scheduled
before its own registration finishes. -/
theorem registration_before_fetch_enqueue (cache : String → Feed)
    (argsFeed : List String) (sels : List (String × Selection))
    (i : Nat) (d nm : String)
    (hi : (materialize cache argsFeed sels).1.mat.events[i]? =
      some (Event.addTask d nm)) :
    ∃ (j k l : Nat) (href : String), j < k ∧ k < l ∧ l < i ∧
      (materialize cache argsFeed sels).1.mat.events[j]? =
        some (Event.makedirs d) ∧
      (materialize cache argsFeed sels).1.mat.events[k]? =
        some (Event.gitInitRepo d) ∧
      (materialize cache argsFeed sels).1.mat.events[l]? =
        some (Event.gitSubmoduleAdd href d) :=
  fetchLoop_regPrecedesTask cache argsFeed sels ⟨⟨[], []⟩, []⟩
    (fun i d nm hi => by simp at hi) i d nm hi

/-- Witness for C4 on the concrete run over `collidingSels`: the fetch
task scheduled at trace position 3 is preceded by its three registration
events. -/
theorem registration_before_fetch_enqueue_witness :
    ∃ (j k l : Nat) (href : String), j < k ∧ k < l ∧ l < 3 ∧
      (materialize cache0 [] collidingSels).1.mat.events[j]? =
        some (Event.makedirs ".dependencies/x") ∧
      (materialize cache0 [] collidingSels).1.mat.events[k]? =
        some (Event.gitInitRepo ".dependencies/x") ∧
      (materialize cache0 [] collidingSels).1.mat.events[l]? =
        some (Event.gitSubmoduleAdd href ".dependencies/x") :=
  registration_before_fetch_enqueue cache0 [] collidingSels 3
    ".dependencies/x" "x" (by decide)

/-- The work directory `git_add_feed_submodule` would create for a feed
under a given placement directory: defined exactly when the feed carries
exactly one `vcs-repository` entry (develop.py lines 83-93). -/
def feedWorkDir (feed : Feed) (whereDir : String) : Option String :=
  match feed.vcsRepos with
  | [repo] => some (whereDir ++ "/" ++ submoduleNameOf repo.href)
  | _ => none

/-- The work directory a selection would occupy when materialized by the
fetch loop: defined when the selected implementation id is present and
the feed carries exactly one vcs origin. -/
def wouldMaterializeDir (cache : String → Feed) (argsFeed : List String)
    (uri : String) (sel : Selection) : Option String :=
  if (dictGet? (cache uri).implementations sel.id).isSome then
    feedWorkDir (cache uri) (if uri ∈ argsFeed then "." else ".dependencies")
  else none

/-- Case analysis of a successful `git_add_feed_submodule` call: either
the component is skipped with the state untouched, or a fresh work
directory (absent from the state) is created and the registration block
appended. -/
theorem git_add_feed_submodule_ok_cases (feed : Feed) (whereDir : String)
    (st : MatState) (res : Option String × MatState)
    (h : git_add_feed_submodule feed whereDir st = .ok res) :
    res.2 = st ∨
      ∃ d href nm, d ∉ st.dirs ∧
        res.2.dirs = d :: st.dirs ∧
        res.2.events = st.events ++
          [.makedirs d, .gitInitRepo d, .gitSubmoduleAdd href d,
           .addTask d nm] := by
  rcases hv : feed.vcsRepos with _ | ⟨repo, _ | _⟩ <;>
    simp only [git_add_feed_submodule, hv] at h
  · simp only [Except.ok.injEq] at h
    subst h
    exact .inl rfl
  · split at h
    · simp at h
    · rename_i hmem
      simp only [Except.ok.injEq] at h
      subst h
      exact .inr ⟨_, _, _, hmem, rfl, rfl⟩
  · simp at h

/-- When the work directory already exists, `git_add_feed_submodule`
raises the `makedirs` failure (develop.py line 94). -/
theorem git_add_feed_submodule_error_of_dir_exists (feed : Feed)
    (whereDir : String) (st : MatState) (d : String)
    (hw : feedWorkDir feed whereDir = some d) (hd : d ∈ st.dirs) :
    git_add_feed_submodule feed whereDir st =
      .error (.makedirsExists d) := by
  rcases hv : feed.vcsRepos with _ | ⟨repo, _ | _⟩
  · simp only [feedWorkDir, hv] at hw
    exact Option.noConfusion hw
  · simp only [feedWorkDir, hv, Option.some.injEq] at hw
    subst hw
    simp only [git_add_feed_submodule, hv]
    rw [if_pos hd]
  · simp only [feedWorkDir, hv] at hw
    exact Option.noConfusion hw

/-- When the work directory is fresh, a successful call records it in the
created-directory set (and only extends that set). -/
theorem git_add_feed_submodule_ok_dir_mem (feed : Feed)
    (whereDir : String) (st : MatState) (res : Option String × MatState)
    (d : String) (hw : feedWorkDir feed whereDir = some d)
    (h : git_add_feed_submodule feed whereDir st = .ok res) :
    d ∈ res.2.dirs := by
  rcases hv : feed.vcsRepos with _ | ⟨repo, _ | _⟩
  · simp only [feedWorkDir, hv] at hw
    exact Option.noConfusion hw
  · simp only [feedWorkDir, hv, Option.some.injEq] at hw
    subst hw
    simp only [git_add_feed_submodule, hv] at h
    split at h
    · simp at h
    · simp only [Except.ok.injEq] at h
      subst h
      exact List.mem_cons_self _ _
  · simp only [feedWorkDir, hv] at hw
    exact Option.noConfusion hw

/-- A successful `git_add_feed_submodule` call never removes a directory
from the created-directory set. -/
theorem git_add_feed_submodule_ok_dirs_subset (feed : Feed)
    (whereDir : String) (st : MatState) (res : Option String × MatState)
    (h : git_add_feed_submodule feed whereDir st = .ok res) :
    st.dirs ⊆ res.2.dirs := by
  rcases git_add_feed_submodule_ok_cases feed whereDir st res h with
    heq | ⟨d, href, nm, -, hdirs, -⟩
  · rw [heq]
    exact List.Subset.refl _
  · rw [hdirs]
    exact List.subset_cons_self _ _

/-- One-step unfolding of the fetch loop. -/
theorem fetchLoop_cons (cache : String → Feed) (argsFeed : List String)
    (uri : String) (sel : Selection) (rest : List (String × Selection))
    (st : FetchState) :
    fetchLoop cache argsFeed ((uri, sel) :: rest) st =
      match fetchStep cache argsFeed uri sel st with
      | .error e => (st, some e)
      | .ok st1 => fetchLoop cache argsFeed rest st1 := rfl

/-- Lifting the collision failure to a fetch-loop step: a selection whose
would-be work directory already exists fails with the `makedirs`
collision, scheduling nothing. -/
theorem fetchStep_error_of_dir_exists (cache : String → Feed)
    (argsFeed : List String) (uri : String) (sel : Selection)
    (st : FetchState) (d : String)
    (hw : wouldMaterializeDir cache argsFeed uri sel = some d)
    (hd : d ∈ st.mat.dirs) :
    fetchStep cache argsFeed uri sel st =
      .error (.makedirsExists d) := by
  unfold wouldMaterializeDir at hw
  split at hw
  · rename_i himpl
    simp only [fetchStep]
    rw [if_pos himpl,
      git_add_feed_submodule_error_of_dir_exists _ _ _ _ hw hd]
  · exact Option.noConfusion hw

/-- A successful fetch-loop step on a selection with a defined work
directory records that directory as created. -/
theorem fetchStep_ok_dir_mem (cache : String → Feed)
    (argsFeed : List String) (uri : String) (sel : Selection)
    (st st1 : FetchState) (d : String)
    (hw : wouldMaterializeDir cache argsFeed uri sel = some d)
    (h : fetchStep cache argsFeed uri sel st = .ok st1) :
    d ∈ st1.mat.dirs := by
  unfold wouldMaterializeDir at hw
  split at hw
  · rename_i himpl
    simp only [fetchStep] at h
    rw [if_pos himpl] at h
    split at h
    · simp at h
    · rename_i mat1 hg
      simp only [Except.ok.injEq] at h
      subst h
      exact git_add_feed_submodule_ok_dir_mem _ _ _ _ _ hw hg
    · rename_i nm mat1 hg
      split at h <;>
      · simp only [Except.ok.injEq] at h
        subst h
        exact git_add_feed_submodule_ok_dir_mem _ _ _ _ _ hw hg
  · exact Option.noConfusion hw

/-- A successful fetch-loop step never removes a created directory. -/
theorem fetchStep_ok_dirs_subset (cache : String → Feed)
    (argsFeed : List String) (uri : String) (sel : Selection)
    (st st1 : FetchState)
    (h : fetchStep cache argsFeed uri sel st = .ok st1) :
    st.mat.dirs ⊆ st1.mat.dirs := by
  simp only [fetchStep] at h
  split at h
  · split at h
    · simp at h
    · rename_i mat1 hg
      simp only [Except.ok.injEq] at h
      subst h
      exact git_add_feed_submodule_ok_dirs_subset _ _ _ _ hg
    · rename_i nm mat1 hg
      split at h <;>
      · simp only [Except.ok.injEq] at h
        subst h
        exact git_add_feed_submodule_ok_dirs_subset _ _ _ _ hg
  · simp only [Except.ok.injEq] at h
    subst h
    exact List.Subset.refl _

/-- The created-directory set grows monotonically through the fetch loop
(also up to the point of a failure). -/
theorem fetchLoop_dirs_subset (cache : String → Feed)
    (argsFeed : List String) (sels : List (String × Selection))
    (st : FetchState) :
    st.mat.dirs ⊆ (fetchLoop cache argsFeed sels st).1.mat.dirs := by
  induction sels generalizing st with
  | nil => exact List.Subset.refl _
  | cons p rest ih =>
    obtain ⟨uri, sel⟩ := p
    rw [fetchLoop]
    rcases hs : fetchStep cache argsFeed uri sel st with e | st1
    · exact List.Subset.refl _
    · exact (fetchStep_ok_dirs_subset _ _ _ _ _ _ hs).trans (ih st1)

/-- Splitting the fetch loop at an append, no-failure case. -/
theorem fetchLoop_append_none (cache : String → Feed)
    (argsFeed : List String) (l1 l2 : List (String × Selection))
    (st : FetchState) (h : (fetchLoop cache argsFeed l1 st).2 = none) :
    fetchLoop cache argsFeed (l1 ++ l2) st =
      fetchLoop cache argsFeed l2 (fetchLoop cache argsFeed l1 st).1 := by
  induction l1 generalizing st with
  | nil => rfl
  | cons p rest ih =>
    obtain ⟨uri, sel⟩ := p
    cases hs : fetchStep cache argsFeed uri sel st with
    | error e =>
      rw [fetchLoop_cons, hs] at h
      exact absurd h (by simp)
    | ok st1 =>
      rw [List.cons_append,
        fetchLoop_cons cache argsFeed uri sel (rest ++ l2) st,
        fetchLoop_cons cache argsFeed uri sel rest st, hs]
      rw [fetchLoop_cons, hs] at h
      exact ih st1 h

/-- Splitting the fetch loop at an append, failure case: the loop stops
at the failure. -/
theorem fetchLoop_append_some (cache : String → Feed)
    (argsFeed : List String) (l1 l2 : List (String × Selection))
    (st : FetchState) (e : Failure)
    (h : (fetchLoop cache argsFeed l1 st).2 = some e) :
    fetchLoop cache argsFeed (l1 ++ l2) st =
      fetchLoop cache argsFeed l1 st := by
  induction l1 generalizing st with
  | nil =>
    rw [fetchLoop] at h
    exact absurd h (by simp)
  | cons p rest ih =>
    obtain ⟨uri, sel⟩ := p
    cases hs : fetchStep cache argsFeed uri sel st with
    | error e2 =>
      rw [List.cons_append,
        fetchLoop_cons cache argsFeed uri sel (rest ++ l2) st,
        fetchLoop_cons cache argsFeed uri sel rest st, hs]
    | ok st1 =>
      rw [List.cons_append,
        fetchLoop_cons cache argsFeed uri sel (rest ++ l2) st,
        fetchLoop_cons cache argsFeed uri sel rest st, hs]
      rw [fetchLoop_cons, hs] at h
      exact ih st1 h

/-- The number of fetch tasks scheduled for a given work directory. -/
def tasksFor (tr : List Event) (d : String) : Nat :=
  tr.countP (fun ev =>
    match ev with
    | Event.addTask dir _ => dir = d
    | _ => false)

/-- Invariant: at most one fetch task is ever scheduled per work
directory, and a directory with a scheduled task has been created. -/
def TaskDirInv (st : MatState) : Prop :=
  ∀ d : String, tasksFor st.events d ≤ 1 ∧
    (1 ≤ tasksFor st.events d → d ∈ st.dirs)

/-- The call `git_add_feed_submodule` preserves the per-directory task-uniqueness
invariant: it only schedules a task for a directory it just created, which
therefore had no task scheduled before. -/
theorem git_add_feed_submodule_taskDirInv (feed : Feed)
    (whereDir : String) (st : MatState) (res : Option String × MatState)
    (h : git_add_feed_submodule feed whereDir st = .ok res)
    (hinv : TaskDirInv st) : TaskDirInv res.2 := by
  rcases git_add_feed_submodule_ok_cases feed whereDir st res h with
    heq | ⟨d, href, nm, hnot, hdirs, hev⟩
  · rw [heq]
    exact hinv
  · intro d'
    rw [hev, hdirs]
    unfold tasksFor
    rw [List.countP_append]
    by_cases hdd : d = d'
    · subst hdd
      have h0 : tasksFor st.events d = 0 := by
        by_contra hne
        exact hnot ((hinv d).2 (by omega))
      have hb : List.countP (fun ev =>
          match ev with
          | Event.addTask dir _ => dir = d
          | _ => false)
          [Event.makedirs d, Event.gitInitRepo d,
           Event.gitSubmoduleAdd href d, Event.addTask d nm] = 1 := by
        simp [List.countP_cons]
      unfold tasksFor at h0
      rw [hb, h0]
      exact ⟨by omega, fun _ => List.mem_cons_self _ _⟩
    · have hb : List.countP (fun ev =>
          match ev with
          | Event.addTask dir _ => dir = d'
          | _ => false)
          [Event.makedirs d, Event.gitInitRepo d,
           Event.gitSubmoduleAdd href d, Event.addTask d nm] = 0 := by
        simp [List.countP_cons, hdd]
      rw [hb]
      have := hinv d'
      unfold tasksFor at this
      exact ⟨by omega, fun hx =>
        List.mem_cons_of_mem _ (this.2 (by omega))⟩

/-- A fetch-loop step preserves the per-directory task-uniqueness
invariant. -/
theorem fetchStep_taskDirInv (cache : String → Feed)
    (argsFeed : List String) (uri : String) (sel : Selection)
    (st st1 : FetchState)
    (h : fetchStep cache argsFeed uri sel st = .ok st1)
    (hinv : TaskDirInv st.mat) : TaskDirInv st1.mat := by
  simp only [fetchStep] at h
  split at h
  · split at h
    · simp at h
    · rename_i mat1 hg
      simp only [Except.ok.injEq] at h
      subst h
      exact git_add_feed_submodule_taskDirInv _ _ _ _ hg hinv
    · rename_i nm mat1 hg
      split at h <;>
      · simp only [Except.ok.injEq] at h
        subst h
        exact git_add_feed_submodule_taskDirInv _ _ _ _ hg hinv
  · simp only [Except.ok.injEq] at h
    subst h
    exact hinv

/-- The whole fetch loop preserves the per-directory task-uniqueness
invariant, also when it stops at a failure. -/
theorem fetchLoop_taskDirInv (cache : String → Feed)
    (argsFeed : List String) (sels : List (String × Selection))
    (st : FetchState) (hinv : TaskDirInv st.mat) :
    TaskDirInv (fetchLoop cache argsFeed sels st).1.mat := by
  induction sels generalizing st with
  | nil => exact hinv
  | cons p rest ih =>
    obtain ⟨uri, sel⟩ := p
    rw [fetchLoop]
    rcases hs : fetchStep cache argsFeed uri sel st with e | st1
    · exact hinv
    · exact ih st1 (fetchStep_taskDirInv _ _ _ _ _ _ hs hinv)

/-- C2 amended: when two components (in any positions of the selection
list) would materialize into the same work directory, the run fails
fatally, and the failure strikes before the fetch task of the member at
which the collision is detected is scheduled: over the whole run at most
one fetch task is ever scheduled per work directory.  (The fetch task of
the FIRST colliding member may already have been scheduled when the
collision is detected.) -/
theorem materialize_collision_aborts_before_second_task
    (cache : String → Feed) (argsFeed : List String)
    (pre mid post : List (String × Selection))
    (e1 e2 : String × Selection) (d : String)
    (h1 : wouldMaterializeDir cache argsFeed e1.1 e1.2 = some d)
    (h2 : wouldMaterializeDir cache argsFeed e2.1 e2.2 = some d) :
    (materialize cache argsFeed
      (pre ++ e1 :: (mid ++ e2 :: post))).2.isSome ∧
    ∀ d' : String,
      tasksFor (materialize cache argsFeed
        (pre ++ e1 :: (mid ++ e2 :: post))).1.mat.events d' ≤ 1 := by
  constructor
  · unfold materialize
    cases h0 : (fetchLoop cache argsFeed pre ⟨⟨[], []⟩, []⟩).2 with
    | some e0 =>
      rw [fetchLoop_append_some _ _ _ _ _ _ h0, h0]
      rfl
    | none =>
      rw [fetchLoop_append_none _ _ _ _ _ h0]
      obtain ⟨u1, s1⟩ := e1
      cases hs1 : fetchStep cache argsFeed u1 s1
          (fetchLoop cache argsFeed pre ⟨⟨[], []⟩, []⟩).1 with
      | error e =>
        rw [fetchLoop_cons, hs1]
        rfl
      | ok st1 =>
        rw [fetchLoop_cons, hs1]
        show (fetchLoop cache argsFeed
          (mid ++ e2 :: post) st1).2.isSome = true
        have hd1 : d ∈ st1.mat.dirs :=
          fetchStep_ok_dir_mem _ _ _ _ _ _ _ h1 hs1
        cases hm : (fetchLoop cache argsFeed mid st1).2 with
        | some e0 =>
          rw [fetchLoop_append_some _ _ _ _ _ _ hm, hm]
          rfl
        | none =>
          rw [fetchLoop_append_none _ _ _ _ _ hm]
          have hdm : d ∈ (fetchLoop cache argsFeed mid st1).1.mat.dirs :=
            fetchLoop_dirs_subset _ _ _ _ hd1
          obtain ⟨u2, s2⟩ := e2
          rw [fetchLoop_cons,
            fetchStep_error_of_dir_exists _ _ _ _ _ _ h2 hdm]
          rfl
  · intro d'
    exact (fetchLoop_taskDirInv cache argsFeed _ ⟨⟨[], []⟩, []⟩
      (fun d => ⟨by simp [tasksFor], by simp [tasksFor]⟩) d').1

/-- Witness for the amended C2 at the concrete colliding pair: the run
over `collidingSels` fails and schedules at most one task per
directory. -/
theorem materialize_collision_aborts_before_second_task_witness :
    (materialize cache0 []
      ([] ++ ("ua", ⟨"1", "id1"⟩) :: ([] ++ ("ub", ⟨"1", "id2"⟩) ::
        []))).2.isSome ∧
    ∀ d' : String,
      tasksFor (materialize cache0 []
        ([] ++ ("ua", ⟨"1", "id1"⟩) :: ([] ++ ("ub", ⟨"1", "id2"⟩) ::
          []))).1.mat.events d' ≤ 1 :=
  materialize_collision_aborts_before_second_task cache0 [] [] [] []
    ("ua", ⟨"1", "id1"⟩) ("ub", ⟨"1", "id2"⟩) ".dependencies/x"
    (by decide) (by decide)

/-! ### Lemmas about the embedded Python dict operations -/

/-- A key absent from a dict has no entry. -/
theorem dictGet?_eq_none_of_not_mem_keys {α : Type}
    (d : List (String × α)) (k : String) (h : k ∉ d.map Prod.fst) :
    dictGet? d k = none := by
  unfold dictGet?
  rw [List.find?_eq_none.mpr]
  · rfl
  · intro p hp hk
    simp only [decide_eq_true_eq] at hk
    exact h (List.mem_map.2 ⟨p, hp, hk⟩)

/-- Assigning a fresh key appends the entry. -/
theorem dictSet_append_of_not_mem_keys {α : Type}
    (d : List (String × α)) (k : String) (v : α)
    (h : k ∉ d.map Prod.fst) : dictSet d k v = d ++ [(k, v)] := by
  unfold dictSet
  rw [if_neg]
  intro hc
  simp only [List.any_eq_true, decide_eq_true_eq] at hc
  obtain ⟨p, hp, hpk⟩ := hc
  exact h (List.mem_map.2 ⟨p, hp, hpk⟩)

/-- Merging one root whose keys are fresh (absent from the accumulated
selections and the `versions` dict) and duplicate-free simply appends its
entries to both: no version-mismatch assertion can fire. -/
theorem mergeRoot_disjoint (s : List (String × Selection))
    (versions : List (String × String))
    (items : List (String × Selection))
    (hdisj : ∀ p ∈ items,
      p.1 ∉ s.map Prod.fst ∧ p.1 ∉ versions.map Prod.fst)
    (hnodup : (items.map Prod.fst).Nodup) :
    mergeRoot s versions items =
      .ok (s ++ items,
           versions ++ items.map (fun p => (p.1, p.2.version))) := by
  induction items generalizing s versions with
  | nil => simp [mergeRoot]
  | cons p rest ih =>
    obtain ⟨uri, sel⟩ := p
    have hvnone : dictGet? versions uri = none :=
      dictGet?_eq_none_of_not_mem_keys _ _
        (hdisj (uri, sel) (List.mem_cons_self _ _)).2
    have hsd : setdefault versions uri sel.version =
        (sel.version, versions ++ [(uri, sel.version)]) := by
      unfold setdefault
      rw [hvnone]
    simp only [mergeRoot, hsd]
    rw [if_pos trivial,
      dictSet_append_of_not_mem_keys _ _ _
        (hdisj (uri, sel) (List.mem_cons_self _ _)).1]
    simp only [List.map_cons, List.nodup_cons] at hnodup
    rw [ih (s ++ [(uri, sel)]) (versions ++ [(uri, sel.version)])
      ?_ hnodup.2]
    · simp
    · intro q hq
      have hd := hdisj q (List.mem_cons_of_mem _ hq)
      have hqne : q.1 ≠ uri := by
        intro hc
        exact hnodup.1 (hc ▸ List.mem_map.2 ⟨q, hq, rfl⟩)
      constructor
      · simp only [List.map_append, List.mem_append]
        rintro (hmem | hmem)
        · exact hd.1 hmem
        · simp only [List.map_cons, List.map_nil,
            List.mem_singleton] at hmem
          exact hqne hmem
      · simp only [List.map_append, List.mem_append]
        rintro (hmem | hmem)
        · exact hd.2 hmem
        · simp only [List.map_cons, List.map_nil,
            List.mem_singleton] at hmem
          exact hqne hmem

/-- The merge loop over pairwise key-disjoint roots succeeds and the
selections grow by exactly the size of each root. -/
theorem solveLoop_disjoint_sizes (rest : List (List (String × Selection)))
    (s : List (String × Selection)) (versions : List (String × String))
    (hs : ∀ root ∈ rest, ∀ u ∈ root.map Prod.fst,
      u ∉ s.map Prod.fst ∧ u ∉ versions.map Prod.fst)
    (hpair : List.Pairwise (fun r1 r2 =>
      ∀ u ∈ r1.map Prod.fst, u ∉ r2.map Prod.fst) rest)
    (hnodup : ∀ root ∈ rest, (root.map Prod.fst).Nodup) :
    ∃ s1, solveLoop (some s) versions rest = .ok (some s1) ∧
      s1.length = s.length + (rest.map List.length).sum := by
  induction rest generalizing s versions with
  | nil => exact ⟨s, rfl, by simp⟩
  | cons r rrest ih =>
    have hmerge := mergeRoot_disjoint s versions r
      (fun p hp => hs r (List.mem_cons_self _ _) p.1
        (List.mem_map.2 ⟨p, hp, rfl⟩))
      (hnodup r (List.mem_cons_self _ _))
    have hdisj2 : ∀ root ∈ rrest, ∀ u ∈ root.map Prod.fst,
        u ∉ (s ++ r).map Prod.fst ∧
        u ∉ (versions ++
          r.map (fun p => (p.1, p.2.version))).map Prod.fst := by
      intro root hroot u hu
      have hd := hs root (List.mem_cons_of_mem _ hroot) u hu
      have hdr : u ∉ r.map Prod.fst :=
        fun hc => (List.pairwise_cons.1 hpair).1 root hroot u hc hu
      constructor
      · simp only [List.map_append, List.mem_append]
        rintro (hmem | hmem)
        · exact hd.1 hmem
        · exact hdr hmem
      · simp only [List.map_append, List.mem_append]
        rintro (hmem | hmem)
        · exact hd.2 hmem
        · rw [List.map_map] at hmem
          exact hdr (by simpa using hmem)
    obtain ⟨s1, hrun, hlen⟩ := ih (s ++ r)
      (versions ++ r.map (fun p => (p.1, p.2.version)))
      hdisj2 (List.pairwise_cons.1 hpair).2
      (fun root h => hnodup root (List.mem_cons_of_mem _ h))
    refine ⟨s1, ?_, ?_⟩
    · rw [solveLoop, hmerge]
      exact hrun
    · rw [hlen]
      simp only [List.length_append, List.map_cons, List.sum_cons]
      omega

/-- C8: for root requests whose per-root resolutions have pairwise
disjoint component identities (and duplicate-free keys, as Python dicts
guarantee), the merge succeeds and the merged SelectionSet's size is the
sum of the sizes of the per-root selection sets. -/
theorem solve_disjoint_union_size (r : List (String × Selection))
    (rest : List (List (String × Selection)))
    (hpair : List.Pairwise (fun r1 r2 =>
      ∀ u ∈ r1.map Prod.fst, u ∉ r2.map Prod.fst) (r :: rest))
    (hnodup : ∀ root ∈ r :: rest, (root.map Prod.fst).Nodup) :
    ∃ s, solve (r :: rest) = .ok (some s) ∧
      s.length = ((r :: rest).map List.length).sum := by
  obtain ⟨s1, hrun, hlen⟩ := solveLoop_disjoint_sizes rest r []
    (fun root hroot u hu =>
      ⟨fun hc => (List.pairwise_cons.1 hpair).1 root hroot u hc hu,
       by simp⟩)
    (List.pairwise_cons.1 hpair).2
    (fun root h => hnodup root (List.mem_cons_of_mem _ h))
  exact ⟨s1, hrun, by rw [hlen]; simp⟩

/-- A root resolving only `u1` to version `1`. -/
def rootU1 : List (String × Selection) := [("u1", ⟨"1", "i1"⟩)]

/-- A root resolving only `u2` to version `2`. -/
def rootU2 : List (String × Selection) := [("u2", ⟨"2", "i2"⟩)]

/-- Witness for C8: two disjoint single-component roots merge into a
two-entry SelectionSet. -/
theorem solve_disjoint_union_size_witness :
    ∃ s, solve [rootU1, rootU2] = .ok (some s) ∧
      s.length = ([rootU1, rootU2].map List.length).sum :=
  solve_disjoint_union_size rootU1 [rootU2] (by decide) (by decide)

/-- Unfolding a dict lookup over a cons cell. -/
theorem dictGet?_cons {α : Type} (a : String) (b : α)
    (d : List (String × α)) (k : String) :
    dictGet? ((a, b) :: d) k =
      if a = k then some b else dictGet? d k := by
  unfold dictGet?
  rw [List.find?_cons]
  by_cases h : a = k
  · simp [h]
  · simp [h]

/-- A successful dict lookup exhibits a stored entry. -/
theorem mem_of_dictGet?_eq_some {α : Type} (d : List (String × α))
    (u : String) (a : α) (h : dictGet? d u = some a) : (u, a) ∈ d := by
  induction d with
  | nil => simp [dictGet?] at h
  | cons p rest ih =>
    obtain ⟨x, y⟩ := p
    rw [dictGet?_cons] at h
    by_cases hx : x = u
    · rw [if_pos hx] at h
      simp only [Option.some.injEq] at h
      subst hx
      subst h
      exact List.mem_cons_self _ _
    · rw [if_neg hx] at h
      exact List.mem_cons_of_mem _ (ih h)

/-- Replacing the entries of one key does not disturb lookups of other
keys. -/
theorem dictGet?_map_replace_ne {α : Type} (d : List (String × α))
    (k k' : String) (v : α) (h : k' ≠ k) :
    dictGet? (d.map (fun p => if p.1 = k then (k, v) else p)) k' =
      dictGet? d k' := by
  induction d with
  | nil => rfl
  | cons p rest ih =>
    obtain ⟨a, b⟩ := p
    simp only [List.map_cons]
    by_cases ha : a = k
    · rw [if_pos ha, dictGet?_cons, dictGet?_cons,
        if_neg (fun hc => h hc.symm),
        if_neg (fun hc => h (ha ▸ hc).symm)]
      exact ih
    · rw [if_neg ha, dictGet?_cons, dictGet?_cons]
      by_cases hak : a = k'
      · rw [if_pos hak, if_pos hak]
      · rw [if_neg hak, if_neg hak]
        exact ih

/-- Appending a single fresh entry does not disturb lookups of other
keys. -/
theorem dictGet?_append_single_ne {α : Type} (d : List (String × α))
    (k k' : String) (v : α) (h : k' ≠ k) :
    dictGet? (d ++ [(k, v)]) k' = dictGet? d k' := by
  induction d with
  | nil =>
    rw [List.nil_append, dictGet?_cons, if_neg (fun hc => h hc.symm)]
  | cons p rest ih =>
    obtain ⟨a, b⟩ := p
    rw [List.cons_append, dictGet?_cons, dictGet?_cons]
    by_cases hak : a = k'
    · rw [if_pos hak, if_pos hak]
    · rw [if_neg hak, if_neg hak]
      exact ih

/-- Appending an entry for an absent key makes it found. -/
theorem dictGet?_append_single_self {α : Type} (d : List (String × α))
    (k : String) (v : α) (h : dictGet? d k = none) :
    dictGet? (d ++ [(k, v)]) k = some v := by
  induction d with
  | nil => simp [dictGet?_cons]
  | cons p rest ih =>
    obtain ⟨a, b⟩ := p
    rw [dictGet?_cons] at h
    rw [List.cons_append, dictGet?_cons]
    by_cases hak : a = k
    · rw [if_pos hak] at h
      exact absurd h (by simp)
    · rw [if_neg hak] at h
      rw [if_neg hak]
      exact ih h

/-- Dict assignment makes the assigned key map to the new value. -/
theorem dictGet?_dictSet_self {α : Type} (d : List (String × α))
    (k : String) (v : α) : dictGet? (dictSet d k v) k = some v := by
  induction d with
  | nil => simp [dictSet, dictGet?_cons]
  | cons p rest ih =>
    obtain ⟨a, b⟩ := p
    by_cases ha : a = k
    · unfold dictSet
      rw [if_pos (by simp [ha])]
      simp only [List.map_cons]
      rw [if_pos ha, dictGet?_cons, if_pos rfl]
    · by_cases hr : rest.any (fun p => p.1 = k)
      · unfold dictSet
        rw [if_pos (by simp [List.any_cons, hr])]
        simp only [List.map_cons]
        rw [if_neg ha, dictGet?_cons, if_neg ha]
        have hset : dictSet rest k v =
            rest.map (fun p => if p.1 = k then (k, v) else p) := by
          unfold dictSet
          rw [if_pos hr]
        rw [← hset]
        exact ih
      · unfold dictSet
        rw [if_neg (by simp [List.any_cons, ha, hr])]
        rw [List.cons_append, dictGet?_cons, if_neg ha]
        have hset : dictSet rest k v = rest ++ [(k, v)] := by
          unfold dictSet
          rw [if_neg (by simpa using hr)]
        rw [← hset]
        exact ih

/-- Dict assignment does not disturb lookups of other keys. -/
theorem dictGet?_dictSet_ne {α : Type} (d : List (String × α))
    (k k' : String) (v : α) (h : k' ≠ k) :
    dictGet? (dictSet d k v) k' = dictGet? d k' := by
  unfold dictSet
  split
  · exact dictGet?_map_replace_ne d k k' v h
  · exact dictGet?_append_single_ne d k k' v h

/-- The version recorded for a component identity by a selections dict:
the mapping the merged SelectionSet defines from interface URI to
resolved version. -/
def versionMap (s : List (String × Selection)) (u : String) :
    Option String :=
  (dictGet? s u).map (·.version)

/-- Version agreement across (and inside) the per-root resolutions: any
two selections stored for the same interface URI carry the same version
string. -/
def Agree (roots : List (List (String × Selection))) : Prop :=
  ∀ r1 ∈ roots, ∀ r2 ∈ roots, ∀ u a b,
    (u, a) ∈ r1 → (u, b) ∈ r2 → a.version = b.version

/-- Folding one selection item into the accumulator combines the version
maps: the recorded version of the head URI agrees with whatever the
accumulator already stored for it. -/
theorem versionMap_step (s : List (String × Selection)) (uri : String)
    (sel : Selection) (rest : List (String × Selection))
    (s1 : List (String × Selection))
    (hver : ∀ u, versionMap s1 u =
      (versionMap (dictSet s uri sel) u).orElse
        (fun _ => (dictGet? rest u).map (·.version)))
    (hS : ∀ u a b, dictGet? s u = some a → (u, b) ∈ (uri, sel) :: rest →
      a.version = b.version) :
    ∀ u, versionMap s1 u = (versionMap s u).orElse
      (fun _ => (dictGet? ((uri, sel) :: rest) u).map (·.version)) := by
  intro u
  rw [hver u, dictGet?_cons]
  by_cases hu : uri = u
  · subst hu
    rw [if_pos rfl]
    rw [show versionMap (dictSet s uri sel) uri = some sel.version by
      simp [versionMap, dictGet?_dictSet_self]]
    cases hsu : versionMap s uri with
    | none => rfl
    | some x =>
      have hx : x = sel.version := by
        unfold versionMap at hsu
        cases hgs : dictGet? s uri with
        | none =>
          rw [hgs] at hsu
          exact absurd hsu (by simp)
        | some a =>
          rw [hgs] at hsu
          have ha : a.version = x := by simpa using hsu
          rw [← ha]
          exact hS uri a sel hgs (List.mem_cons_self _ _)
      rw [hx]
      rfl
  · rw [if_neg hu]
    rw [show versionMap (dictSet s uri sel) u = versionMap s u by
      unfold versionMap
      rw [dictGet?_dictSet_ne _ _ _ _ (fun hc => hu hc.symm)]]

/-- Merging one root under version agreement never fires the mismatch
assertion; the resulting version map is the old one extended (right-biased
lookup falling back to the root), and every `versions`-dict entry traces
back to the old dict or to the root. -/
theorem mergeRoot_agree (s : List (String × Selection))
    (versions : List (String × String)) (r : List (String × Selection))
    (hSelf : ∀ u a b, (u, a) ∈ r → (u, b) ∈ r → a.version = b.version)
    (hS : ∀ u a b, dictGet? s u = some a → (u, b) ∈ r →
      a.version = b.version)
    (hV : ∀ u v b, dictGet? versions u = some v → (u, b) ∈ r →
      v = b.version) :
    ∃ s1 v1, mergeRoot s versions r = .ok (s1, v1) ∧
      (∀ u, versionMap s1 u = (versionMap s u).orElse
        (fun _ => (dictGet? r u).map (·.version))) ∧
      (∀ u v, dictGet? v1 u = some v →
        dictGet? versions u = some v ∨
          ∃ b, (u, b) ∈ r ∧ v = b.version) := by
  induction r generalizing s versions with
  | nil =>
    refine ⟨s, versions, rfl, fun u => ?_, fun u v hv => .inl hv⟩
    cases versionMap s u <;> rfl
  | cons p rest ih =>
    obtain ⟨uri, sel⟩ := p
    have hSelf2 : ∀ u a b, (u, a) ∈ rest → (u, b) ∈ rest →
        a.version = b.version :=
      fun u a b ha hb => hSelf u a b (List.mem_cons_of_mem _ ha)
        (List.mem_cons_of_mem _ hb)
    have hS2 : ∀ u a b, dictGet? (dictSet s uri sel) u = some a →
        (u, b) ∈ rest → a.version = b.version := by
      intro u a b hga hb
      by_cases hu : u = uri
      · subst hu
        rw [dictGet?_dictSet_self] at hga
        simp only [Option.some.injEq] at hga
        subst hga
        exact hSelf u sel b (List.mem_cons_self _ _)
          (List.mem_cons_of_mem _ hb)
      · rw [dictGet?_dictSet_ne _ _ _ _ hu] at hga
        exact hS u a b hga (List.mem_cons_of_mem _ hb)
    cases hvv : dictGet? versions uri with
    | some v0 =>
      have hv0 : v0 = sel.version :=
        hV uri v0 sel hvv (List.mem_cons_self _ _)
      have hsd : setdefault versions uri sel.version = (v0, versions) := by
        unfold setdefault
        rw [hvv]
      have hV2 : ∀ u v b, dictGet? versions u = some v → (u, b) ∈ rest →
          v = b.version :=
        fun u v b hgv hb => hV u v b hgv (List.mem_cons_of_mem _ hb)
      obtain ⟨s1, v1, hrun, hver, hvdict⟩ :=
        ih (dictSet s uri sel) versions hSelf2 hS2 hV2
      refine ⟨s1, v1, ?_, versionMap_step s uri sel rest s1 hver hS, ?_⟩
      · simp only [mergeRoot, hsd]
        first
          | rw [if_pos trivial]
          | rw [if_pos hv0]
        exact hrun
      · intro u v hv
        rcases hvdict u v hv with hold | ⟨b, hb, hvb⟩
        · exact .inl hold
        · exact .inr ⟨b, List.mem_cons_of_mem _ hb, hvb⟩
    | none =>
      have hsd : setdefault versions uri sel.version =
          (sel.version, versions ++ [(uri, sel.version)]) := by
        unfold setdefault
        rw [hvv]
      have hV2 : ∀ u v b,
          dictGet? (versions ++ [(uri, sel.version)]) u = some v →
          (u, b) ∈ rest → v = b.version := by
        intro u v b hgv hb
        by_cases hu : u = uri
        · subst hu
          rw [dictGet?_append_single_self _ _ _ hvv] at hgv
          simp only [Option.some.injEq] at hgv
          subst hgv
          exact hSelf u sel b (List.mem_cons_self _ _)
            (List.mem_cons_of_mem _ hb)
        · rw [dictGet?_append_single_ne _ _ _ _ hu] at hgv
          exact hV u v b hgv (List.mem_cons_of_mem _ hb)
      obtain ⟨s1, v1, hrun, hver, hvdict⟩ :=
        ih (dictSet s uri sel) (versions ++ [(uri, sel.version)])
          hSelf2 hS2 hV2
      refine ⟨s1, v1, ?_, versionMap_step s uri sel rest s1 hver hS, ?_⟩
      · simp only [mergeRoot, hsd]
        rw [if_pos trivial]
        exact hrun
      · intro u v hv
        rcases hvdict u v hv with hold | ⟨b, hb, hvb⟩
        · by_cases hu : u = uri
          · subst hu
            rw [dictGet?_append_single_self _ _ _ hvv] at hold
            simp only [Option.some.injEq] at hold
            exact .inr ⟨sel, List.mem_cons_self _ _, hold.symm⟩
          · rw [dictGet?_append_single_ne _ _ _ _ hu] at hold
            exact .inl hold
        · exact .inr ⟨b, List.mem_cons_of_mem _ hb, hvb⟩

/-- The merge loop under version agreement succeeds; the resulting
version map extends the accumulator's by the first root containing each
identity. -/
theorem solveLoop_agree (rest : List (List (String × Selection)))
    (s : List (String × Selection)) (versions : List (String × String))
    (hS : ∀ r ∈ rest, ∀ u a b, dictGet? s u = some a → (u, b) ∈ r →
      a.version = b.version)
    (hV : ∀ r ∈ rest, ∀ u v b, dictGet? versions u = some v →
      (u, b) ∈ r → v = b.version)
    (hA : ∀ r1 ∈ rest, ∀ r2 ∈ rest, ∀ u a b, (u, a) ∈ r1 →
      (u, b) ∈ r2 → a.version = b.version) :
    ∃ s1, solveLoop (some s) versions rest = .ok (some s1) ∧
      ∀ u, versionMap s1 u = (versionMap s u).orElse
        (fun _ => (rest.findSome? (fun r => dictGet? r u)).map
          (·.version)) := by
  induction rest generalizing s versions with
  | nil =>
    refine ⟨s, rfl, fun u => ?_⟩
    cases versionMap s u <;> rfl
  | cons r rrest ih =>
    obtain ⟨s1, v1, hmerge, hver1, hvdict1⟩ := mergeRoot_agree s versions r
      (hA r (List.mem_cons_self _ _) r (List.mem_cons_self _ _))
      (hS r (List.mem_cons_self _ _)) (hV r (List.mem_cons_self _ _))
    have hS2 : ∀ r2 ∈ rrest, ∀ u a b, dictGet? s1 u = some a →
        (u, b) ∈ r2 → a.version = b.version := by
      intro r2 hr2 u a b hga hb
      have h1 := hver1 u
      have hga' : versionMap s1 u = some a.version := by
        unfold versionMap
        rw [hga]
        rfl
      rw [hga'] at h1
      cases hsu : versionMap s u with
      | some x =>
        rw [hsu] at h1
        have h1' : some a.version = some x := h1
        have hax : a.version = x := by simpa using h1'
        obtain ⟨a0, hga0, ha0⟩ :
            ∃ a0, dictGet? s u = some a0 ∧ a0.version = x := by
          unfold versionMap at hsu
          cases hgs : dictGet? s u with
          | none =>
            rw [hgs] at hsu
            exact absurd hsu (by simp)
          | some a0 =>
            rw [hgs] at hsu
            exact ⟨a0, rfl, by simpa using hsu⟩
        rw [hax, ← ha0]
        exact hS r2 (List.mem_cons_of_mem _ hr2) u a0 b hga0 hb
      | none =>
        rw [hsu] at h1
        have h1' : some a.version =
            (dictGet? r u).map (·.version) := h1
        cases hgr : dictGet? r u with
        | none =>
          rw [hgr] at h1'
          exact absurd h1' (by simp)
        | some c =>
          rw [hgr] at h1'
          have hac : a.version = c.version := by simpa using h1'
          rw [hac]
          exact hA r (List.mem_cons_self _ _) r2
            (List.mem_cons_of_mem _ hr2) u c b
            (mem_of_dictGet?_eq_some _ _ _ hgr) hb
    have hV2 : ∀ r2 ∈ rrest, ∀ u v b, dictGet? v1 u = some v →
        (u, b) ∈ r2 → v = b.version := by
      intro r2 hr2 u v b hgv hb
      rcases hvdict1 u v hgv with hold | ⟨c, hc, hvc⟩
      · exact hV r2 (List.mem_cons_of_mem _ hr2) u v b hold hb
      · rw [hvc]
        exact hA r (List.mem_cons_self _ _) r2
          (List.mem_cons_of_mem _ hr2) u c b hc hb
    have hA2 : ∀ r1 ∈ rrest, ∀ r2 ∈ rrest, ∀ u a b, (u, a) ∈ r1 →
        (u, b) ∈ r2 → a.version = b.version :=
      fun r1 h1 r2 h2 => hA r1 (List.mem_cons_of_mem _ h1) r2
        (List.mem_cons_of_mem _ h2)
    obtain ⟨s2, hrun2, hver2⟩ := ih s1 v1 hS2 hV2 hA2
    refine ⟨s2, ?_, fun u => ?_⟩
    · rw [solveLoop, hmerge]
      exact hrun2
    · rw [hver2 u, hver1 u, List.findSome?_cons]
      cases hsu : versionMap s u with
      | some x => rfl
      | none =>
        cases hgr : dictGet? r u with
        | some c => rfl
        | none => rfl

/-- Under version agreement the whole merge succeeds and the merged
version map sends each identity to the version found in the first root
containing it (which, by agreement, is the version found in every root
containing it). -/
theorem solve_agree_characterization (r : List (String × Selection))
    (rest : List (List (String × Selection)))
    (hA : Agree (r :: rest)) :
    ∃ s, solve (r :: rest) = .ok (some s) ∧
      ∀ u, versionMap s u =
        ((r :: rest).findSome? (fun r2 => dictGet? r2 u)).map
          (·.version) := by
  obtain ⟨s1, hrun, hver⟩ := solveLoop_agree rest r []
    (fun r2 hr2 u a b hga hb =>
      hA r (List.mem_cons_self _ _) r2 (List.mem_cons_of_mem _ hr2) u a b
        (mem_of_dictGet?_eq_some _ _ _ hga) hb)
    (fun r2 hr2 u v b hgv hb => absurd hgv (by simp [dictGet?]))
    (fun r1 h1 r2 h2 => hA r1 (List.mem_cons_of_mem _ h1) r2
      (List.mem_cons_of_mem _ h2))
  refine ⟨s1, hrun, fun u => ?_⟩
  rw [hver u, List.findSome?_cons,
    show versionMap r u = (dictGet? r u).map (·.version) from rfl]
  cases hgr : dictGet? r u with
  | some c => rfl
  | none => rfl

/-- Under agreement, the version of the first root containing an identity
does not depend on the order of the roots. -/
theorem findSome?_version_eq_of_perm
    (roots roots' : List (List (String × Selection)))
    (hperm : roots.Perm roots') (hA : Agree roots) (u : String) :
    (roots.findSome? (fun r => dictGet? r u)).map (·.version) =
      (roots'.findSome? (fun r => dictGet? r u)).map (·.version) := by
  cases hf : roots.findSome? (fun r => dictGet? r u) with
  | none =>
    rw [List.findSome?_eq_none_iff.2 (fun r hr =>
      List.findSome?_eq_none_iff.1 hf r (hperm.mem_iff.2 hr))]
  | some a =>
    obtain ⟨r, hr, hra⟩ := List.exists_of_findSome?_eq_some hf
    cases hf' : roots'.findSome? (fun r => dictGet? r u) with
    | none =>
      have hnone := List.findSome?_eq_none_iff.1 hf' r (hperm.mem_iff.1 hr)
      rw [hnone] at hra
      exact absurd hra (by simp)
    | some a' =>
      obtain ⟨r', hr', hra'⟩ := List.exists_of_findSome?_eq_some hf'
      have hv : a.version = a'.version :=
        hA r hr r' (hperm.mem_iff.2 hr') u a a'
          (mem_of_dictGet?_eq_some _ _ _ hra)
          (mem_of_dictGet?_eq_some _ _ _ hra')
      simp [hv]

/-- C3: when the per-root resolutions agree on the version of every shared
component identity, the merge succeeds on any processing order of the
root requests and the merged SelectionSet defines the same mapping from
component identity to resolved version for every order. -/
theorem solve_agree_order_independent
    (roots roots' : List (List (String × Selection)))
    (hperm : roots.Perm roots') (hA : Agree roots) (hne : roots ≠ []) :
    ∃ s s', solve roots = .ok (some s) ∧ solve roots' = .ok (some s') ∧
      ∀ u, versionMap s u = versionMap s' u := by
  have hA' : Agree roots' := fun r1 h1 r2 h2 u a b ha hb =>
    hA r1 (hperm.mem_iff.2 h1) r2 (hperm.mem_iff.2 h2) u a b ha hb
  match roots, hperm, hA, hne with
  | r :: rest, hperm, hA, _ =>
    obtain ⟨r', rest', rfl⟩ : ∃ h t, roots' = h :: t := by
      cases hr' : roots' with
      | nil =>
        rw [hr'] at hperm
        exact absurd hperm.eq_nil (by simp)
      | cons h t => exact ⟨h, t, rfl⟩
    obtain ⟨s, hs, hver⟩ := solve_agree_characterization r rest hA
    obtain ⟨s', hs', hver'⟩ := solve_agree_characterization r' rest' hA'
    refine ⟨s, s', hs, hs', fun u => ?_⟩
    rw [hver u, hver' u]
    exact findSome?_version_eq_of_perm _ _ hperm hA u

/-- The two concrete single-component roots in one order. -/
def agreeRootsA : List (List (String × Selection)) :=
  [[("u", ⟨"1", "i1"⟩)], [("w", ⟨"2", "i2"⟩)]]

/-- The same roots in the other order. -/
def agreeRootsB : List (List (String × Selection)) :=
  [[("w", ⟨"2", "i2"⟩)], [("u", ⟨"1", "i1"⟩)]]

/-- Witness for C3 at a concrete pair of orderings of agreeing roots. -/
theorem solve_agree_order_independent_witness :
    ∃ s s', solve agreeRootsA = .ok (some s) ∧
      solve agreeRootsB = .ok (some s') ∧
      ∀ u, versionMap s u = versionMap s' u :=
  solve_agree_order_independent agreeRootsA agreeRootsB
    (List.Perm.swap _ _ _)
    (by
      intro r1 h1 r2 h2 u a b ha hb
      simp only [agreeRootsA, List.mem_cons, List.not_mem_nil,
        or_false] at h1 h2
      rcases h1 with rfl | rfl <;> rcases h2 with rfl | rfl <;>
        simp_all)
    (by simp [agreeRootsA])

end Develop
